import Mathlib

/-!
Verification of the shared-ownership and concurrency primitives described by
the specification of this repository (chapters 15 and 16 of the source).

The source files use the standard-library primitives `Rc`, `Weak`, `RefCell`,
`Arc`, `Mutex` and `mpsc::channel`; the specification names them SharedCell,
WeakRef, MutableCell, ThreadSafeSharedCell, Mutex and Channel.  The
implementations of those primitives are not part of the repository sources
(only their callers are), so each primitive is modelled here from the
specification, and the concrete caller functions of the source
(`shared_list`, `will_panic`, `tree`, `reference_cycle`, `multiple_messages`,
`multiple_threads_share`, `mutex`, `MyBox`) are embedded as operation
sequences over those models.
-/

/-! ## SharedCell (Rc) control block -/

/-- Modelled from the spec: the control block of a `SharedCell<T>` (the
repository uses `std::rc::Rc`, whose implementation is not in the sources).
`{value: T, strong_count, weak_count}`; the value is destroyed when
`strong_count` reaches 0, the control block when both counts are 0. -/
structure RcState where
  strong : Nat
  weak : Nat
  valueDestroyed : Bool
  blockDestroyed : Bool
deriving Repr, DecidableEq

/-- The state right after `new(value)`: strong = 1, weak = 0, nothing
destroyed. -/
def rcInit : RcState := ⟨1, 0, false, false⟩

/-- Operations an owner of handles can perform on one control block.
`cloneOp` and `dropOp` act on a strong handle, `downgradeOp` creates a weak
handle, `dropWeakOp` drops a weak handle. -/
inductive RcOp where
  | cloneOp
  | dropOp
  | downgradeOp
  | dropWeakOp
deriving Repr, DecidableEq

/-- Modelled from the spec: one operation on the control block.  `none` means
the operation is impossible (it would need a handle that does not exist).
`dropOp` decrements `strong`; at 0 it destroys the value, and also the control
block when `weak` is 0.  `dropWeakOp` decrements `weak`; the block is
destroyed once both counts are 0. -/
def rcStep : RcOp → RcState → Option RcState
  | .cloneOp, s =>
    if 1 ≤ s.strong then some { s with strong := s.strong + 1 } else none
  | .dropOp, s =>
    if 1 ≤ s.strong then
      if s.strong - 1 = 0 then
        some { s with strong := 0, valueDestroyed := true,
                      blockDestroyed := s.weak = 0 }
      else
        some { s with strong := s.strong - 1 }
    else none
  | .downgradeOp, s =>
    if 1 ≤ s.strong then some { s with weak := s.weak + 1 } else none
  | .dropWeakOp, s =>
    if 1 ≤ s.weak then
      some { s with weak := s.weak - 1,
                    blockDestroyed := s.strong = 0 ∧ s.weak - 1 = 0 }
    else none

/-- Run a sequence of operations on a control block; `none` if any step is
impossible. -/
def rcRun : List RcOp → RcState → Option RcState
  | [], s => some s
  | op :: ops, s =>
    match rcStep op s with
    | none => none
    | some s' => rcRun ops s'

/-- Number of steps of a run at which the value gets destroyed (the
`valueDestroyed` flag flips from false to true). -/
def rcDestroyCount : List RcOp → RcState → Nat
  | [], _ => 0
  | op :: ops, s =>
    match rcStep op s with
    | none => 0
    | some s' =>
      (if s'.valueDestroyed && !s.valueDestroyed then 1 else 0)
        + rcDestroyCount ops s'

/-- The per-block invariant: the value is destroyed exactly when the strong
count is 0, and the control block exactly when both counts are 0. -/
def RcInv (s : RcState) : Prop :=
  (s.valueDestroyed = true ↔ s.strong = 0)
    ∧ (s.blockDestroyed = true ↔ s.strong = 0 ∧ s.weak = 0)

/-! ## SharedCell handles with a value, WeakRef and upgrade -/

/-- Modelled from the spec: an owning `SharedCell<T>` handle, a value together
with the state of its control block. -/
structure SharedCell (α : Type) where
  value : α
  ctrl : RcState
deriving Repr, DecidableEq

/-- `deref(&self) -> &T`: read-only access to the wrapped value. -/
def SharedCell.deref (c : SharedCell α) : α := c.value

/-- `new(value)`: a fresh cell with strong = 1 and weak = 0. -/
def SharedCell.mkNew (x : α) : SharedCell α := ⟨x, rcInit⟩

/-- Modelled from the spec: a `WeakRef<T>` (the repository uses
`std::rc::Weak`).  Either empty (`Weak::new()`) or targeting a control
block. -/
inductive WeakRef (α : Type) where
  | empty
  | targeting (cell : SharedCell α)
deriving Repr, DecidableEq

/-- Strong count of the weak reference's target; an empty weak reference has
no living target, so its target strong count is 0. -/
def WeakRef.targetStrong : WeakRef α → Nat
  | .empty => 0
  | .targeting c => c.ctrl.strong

/-- Modelled from the spec: `upgrade(&self) -> Option<SharedCell<T>>` returns
"absent" if the target's strong count is 0, else increments the strong count
and returns a new owning handle. -/
def WeakRef.upgrade : WeakRef α → Option (SharedCell α)
  | .empty => none
  | .targeting c =>
    if c.ctrl.strong = 0 then none
    else some { c with ctrl := { c.ctrl with strong := c.ctrl.strong + 1 } }

/-- Value stored in the `leaf` node of the source function `tree`. -/
def treeLeafValue : Nat := 3

/-- Value stored in the `branch` node of the source function `tree`. -/
def treeBranchValue : Nat := 5

/-- Control block of `branch` in `tree` after
`*leaf.parent.borrow_mut() = Rc::downgrade(&branch)`: created by `Rc::new`
and then downgraded once. -/
def treeBranchCtrl : Option RcState := rcRun [.downgradeOp] rcInit

/-- Control block of `leaf` in `tree` after `branch` is created: `branch`'s
`children` vector holds `Rc::clone(&leaf)`. -/
def treeLeafCtrl : Option RcState := rcRun [.cloneOp] rcInit

/-! ## MutableCell (RefCell) -/

/-- Modelled from the spec: borrow state of a `MutableCell<T>` (the
repository uses `std::cell::RefCell`): `Unborrowed | Shared(n ≥ 1) |
Exclusive`. -/
inductive BorrowState where
  | unborrowed
  | shared (n : Nat)
  | exclusive
deriving Repr, DecidableEq

/-- Failure signals of the runtime aliasing check. -/
inductive BorrowError where
  | alreadyBorrowed
  | alreadyExclusivelyBorrowed
deriving Repr, DecidableEq

/-- Modelled from the spec: `borrow_mut(&self) -> WriteGuard` fails
("already borrowed") unless the state is Unborrowed, else transitions to
Exclusive. -/
def borrowMut : BorrowState → Except BorrowError BorrowState
  | .unborrowed => .ok .exclusive
  | .shared _ => .error .alreadyBorrowed
  | .exclusive => .error .alreadyBorrowed

/-- Modelled from the spec: `borrow(&self) -> ReadGuard` fails ("already
exclusively borrowed") if the state is Exclusive, else increments the shared
count. -/
def borrow : BorrowState → Except BorrowError BorrowState
  | .unborrowed => .ok (.shared 1)
  | .shared n => .ok (.shared (n + 1))
  | .exclusive => .error .alreadyExclusivelyBorrowed

/-- A `MutableCell` together with the number of outstanding read and write
guards handed out and not yet released. -/
structure MutableCell where
  bs : BorrowState
  readGuards : Nat
  writeGuards : Nat
deriving Repr, DecidableEq

/-- `new(value)` starts Unborrowed with no outstanding guards. -/
def mcInit : MutableCell := ⟨.unborrowed, 0, 0⟩

/-- Operations on one `MutableCell`: take a read or write borrow, or release
a guard obtained earlier. -/
inductive McOp where
  | borrowOp
  | borrowMutOp
  | releaseReadOp
  | releaseWriteOp
deriving Repr, DecidableEq

/-- One operation on a `MutableCell`.  A failed borrow grants no guard and
leaves the cell unchanged (in the source the failure is a panic aborting the
operation); releasing when no matching guard is outstanding changes
nothing. -/
def mcStep : McOp → MutableCell → MutableCell
  | .borrowOp, c =>
    match borrow c.bs with
    | .ok bs' => { c with bs := bs', readGuards := c.readGuards + 1 }
    | .error _ => c
  | .borrowMutOp, c =>
    match borrowMut c.bs with
    | .ok bs' => { c with bs := bs', writeGuards := c.writeGuards + 1 }
    | .error _ => c
  | .releaseReadOp, c =>
    match c.bs with
    | .shared 1 => { c with bs := .unborrowed, readGuards := c.readGuards - 1 }
    | .shared (n + 2) =>
      { c with bs := .shared (n + 1), readGuards := c.readGuards - 1 }
    | _ => c
  | .releaseWriteOp, c =>
    match c.bs with
    | .exclusive => { c with bs := .unborrowed, writeGuards := c.writeGuards - 1 }
    | _ => c

/-- Run an interleaving of borrow/release operations on one cell. -/
def mcRun (ops : List McOp) (c : MutableCell) : MutableCell :=
  ops.foldl (fun c op => mcStep op c) c

/-- The aliasing invariant: the borrow state agrees with the outstanding
guards, so an Exclusive state means exactly one write guard and no read
guard. -/
def McInv (c : MutableCell) : Prop :=
  (c.bs = .unborrowed → c.readGuards = 0 ∧ c.writeGuards = 0)
    ∧ (∀ n, c.bs = .shared n → c.readGuards = n ∧ c.writeGuards = 0 ∧ 1 ≤ n)
    ∧ (c.bs = .exclusive → c.readGuards = 0 ∧ c.writeGuards = 1)

/-! ## The reference cycle of `reference_cycle` -/

/-- Heap of the source function `reference_cycle`: the strong counts of the
control blocks of `a` and `b`, whether each value has been destroyed, and
whether the `RefCell` tail stored inside each value currently holds a strong
handle to the other block. -/
structure CycleHeap where
  strongA : Nat
  strongB : Nat
  destroyedA : Bool
  destroyedB : Bool
  tailAtoB : Bool
  tailBtoA : Bool
deriving Repr, DecidableEq

/-- After `let a = Rc::new(Cons(5, RefCell::new(Rc::new(Nil))))`: one local
handle to `a`. -/
def cycleStart : CycleHeap := ⟨1, 0, false, false, false, false⟩

/-- After `let b = Rc::new(Cons(10, RefCell::new(Rc::clone(&a))))`: `a` is
cloned into `b`'s tail and a local handle to `b` exists. -/
def cycleAfterB : CycleHeap :=
  { cycleStart with
    strongA := cycleStart.strongA + 1, strongB := 1, tailBtoA := true }

/-- After `*link.borrow_mut() = Rc::clone(&b)`: `b` is cloned into `a`'s
tail (the `Rc<Nil>` previously stored there is dropped). -/
def cycleAfterLink : CycleHeap :=
  { cycleAfterB with strongB := cycleAfterB.strongB + 1, tailAtoB := true }

/-- After `reference_cycle` returns: the local handles `b` and `a` are
dropped, decrementing each strong count by one. -/
def cycleAtEnd : CycleHeap :=
  { cycleAfterLink with
    strongA := cycleAfterLink.strongA - 1, strongB := cycleAfterLink.strongB - 1 }

/-- One step of destruction propagation: a block whose strong count is 0 and
whose value is not yet destroyed has its value destroyed, which drops the
strong handle that value's tail holds on the other block.  If neither block
is eligible nothing happens. -/
def gcStep (h : CycleHeap) : CycleHeap :=
  if h.strongA = 0 ∧ h.destroyedA = false then
    { h with destroyedA := true, tailAtoB := false,
             strongB := if h.tailAtoB then h.strongB - 1 else h.strongB }
  else if h.strongB = 0 ∧ h.destroyedB = false then
    { h with destroyedB := true, tailBtoA := false,
             strongA := if h.tailBtoA then h.strongA - 1 else h.strongA }
  else h

/-- Iterated destruction propagation. -/
def gcIter : Nat → CycleHeap → CycleHeap
  | 0, h => h
  | n + 1, h => gcIter n (gcStep h)

/-! ## Channel (mpsc) -/

/-- Modelled from the spec: a `Channel<T>` (the repository uses
`std::sync::mpsc::channel`): an ordered FIFO queue plus the number of live
producer handles. -/
structure Channel (α : Type) where
  queue : List α
  producers : Nat
deriving Repr, DecidableEq

/-- `channel()`: empty queue, one initial producer handle. -/
def Channel.mkNew (α : Type) : Channel α := ⟨[], 1⟩

/-- `send(value)` enqueues at the back of the FIFO. -/
def Channel.send (c : Channel α) (a : α) : Channel α :=
  { c with queue := c.queue ++ [a] }

/-- `Sender::clone` increments the producer count. -/
def Channel.cloneSender (c : Channel α) : Channel α :=
  { c with producers := c.producers + 1 }

/-- Dropping a producer handle decrements the producer count; the channel is
closed once the count reaches 0. -/
def Channel.dropSender (c : Channel α) : Channel α :=
  { c with producers := c.producers - 1 }

/-- Send a whole list from one producer, in order. -/
def Channel.sendAll (c : Channel α) (xs : List α) : Channel α :=
  xs.foldl Channel.send c

/-- Outcome of one `recv` call: a message plus the remaining channel,
"closed", or blocking (queue empty while a producer is still alive). -/
inductive RecvResult (α : Type) where
  | msg (a : α) (rest : Channel α)
  | closed
  | wouldBlock
deriving Repr, DecidableEq

/-- Modelled from the spec: `recv() -> Result<T, Closed>` dequeues the front
message if one is present; on an empty queue it reports "closed" when the
producer count is 0 and otherwise blocks waiting for a sender. -/
def Channel.recvStep (c : Channel α) : RecvResult α :=
  match c.queue with
  | a :: q => .msg a { c with queue := q }
  | [] => if c.producers = 0 then .closed else .wouldBlock

/-- Failure signals of `try_recv`. -/
inductive TryRecvError where
  | empty
  | closed
deriving Repr, DecidableEq

/-- Modelled from the spec: `try_recv` is non-blocking, failing immediately
with "empty" or "closed". -/
def Channel.tryRecv (c : Channel α) : Except TryRecvError (α × Channel α) :=
  match c.queue with
  | a :: q => .ok (a, { c with queue := q })
  | [] => if c.producers = 0 then .error .closed else .error .empty

/-- Receive in a loop until the channel reports closed (the `for received in
rx` iteration of `multiple_messages`); `none` when the loop would block
forever instead of terminating. -/
def recvAllAux : List α → Nat → Option (List α)
  | [], p => if p = 0 then some [] else none
  | a :: q, p => (recvAllAux q p).map fun l => a :: l

/-- Drain a channel by iterating `recv`; the list of messages received, or
`none` if the iteration blocks. -/
def Channel.recvAll (c : Channel α) : Option (List α) :=
  recvAllAux c.queue c.producers

/-- The four messages sent by the spawned thread in `multiple_messages`. -/
def multipleMessagesVals : List String := ["hi", "from", "the", "thread"]

/-! ## Mutex and poisoning -/

/-- Modelled from the spec: a `Mutex<T>`: `{locked}` plus the poison flag
recording that a holder terminated abnormally while holding the lock. -/
structure MutexState where
  locked : Bool
  poisoned : Bool
deriving Repr, DecidableEq

/-- Outcome of a `lock` call: the guard, the guard wrapped in a "poisoned"
error, or blocking because another holder has the lock. -/
inductive LockResult where
  | okGuard
  | poisonedErr
  | blocked
deriving Repr, DecidableEq

/-- Modelled from the spec: `lock` blocks while the lock is held; otherwise
it acquires the lock, surfacing "poisoned" (still wrapping the guard) when a
previous holder terminated abnormally, and the plain guard otherwise. -/
def mutexLock (m : MutexState) : LockResult × MutexState :=
  if m.locked then (.blocked, m)
  else if m.poisoned then (.poisonedErr, { m with locked := true })
  else (.okGuard, { m with locked := true })

/-- Operations on a mutex: a lock attempt, a guard release, or the holder
terminating abnormally while holding the lock (which marks the mutex
poisoned and releases the lock). -/
inductive MutexOp where
  | lockOp
  | unlockOp
  | panicWhileHeldOp
deriving Repr, DecidableEq

/-- One operation on the mutex state. -/
def mutexStep : MutexOp → MutexState → MutexState
  | .lockOp, m => (mutexLock m).2
  | .unlockOp, m => { m with locked := false }
  | .panicWhileHeldOp, m =>
    if m.locked then { m with locked := false, poisoned := true } else m

/-- Run a sequence of mutex operations. -/
def mutexRun (ops : List MutexOp) (m : MutexState) : MutexState :=
  ops.foldl (fun m op => mutexStep op m) m

/-! ## N threads incrementing a Mutex-guarded counter -/

/-- Where one thread of `multiple_threads_share` is in its loop body:
outside the critical section, holding the lock about to read the counter, or
holding the lock having read value `v` and about to write `v + 1` and
release. -/
inductive Phase where
  | outside
  | inCS1
  | inCS2 (v : Nat)
deriving Repr, DecidableEq

/-- One thread: the number of increments it still has to perform and its
current phase. -/
structure ThreadSt where
  rem : Nat
  phase : Phase
deriving Repr, DecidableEq

/-- The shared state of `multiple_threads_share`: the Mutex-guarded counter,
which thread (if any) holds the lock, and the per-thread states. -/
structure MtxCounter where
  counter : Nat
  lockOwner : Option Nat
  threads : List ThreadSt
deriving Repr, DecidableEq

/-- Scheduler step: thread `t` takes its next micro step.  A thread outside
with work left acquires the free lock (or stays blocked while another thread
holds it); inside the critical section it first reads the counter, then
writes the read value plus one, releases the lock, and completes one
iteration. -/
def mtStep (s : MtxCounter) (t : Nat) : MtxCounter :=
  match s.threads.get? t with
  | none => s
  | some th =>
    match th.phase with
    | .outside =>
      if th.rem = 0 then s
      else
        match s.lockOwner with
        | some _ => s
        | none =>
          { s with lockOwner := some t,
                   threads := s.threads.set t { th with phase := .inCS1 } }
    | .inCS1 =>
      if s.lockOwner = some t then
        { s with threads := s.threads.set t { th with phase := .inCS2 s.counter } }
      else s
    | .inCS2 v =>
      if s.lockOwner = some t then
        { s with counter := v + 1, lockOwner := none,
                 threads := s.threads.set t ⟨th.rem - 1, .outside⟩ }
      else s

/-- Run a schedule (an arbitrary interleaving of thread indices). -/
def mtRun (sched : List Nat) (s : MtxCounter) : MtxCounter :=
  sched.foldl mtStep s

/-- Initial state: counter 0, lock free, `n` threads with `k` increments
each. -/
def mtInit (n k : Nat) : MtxCounter :=
  ⟨0, none, List.replicate n ⟨k, .outside⟩⟩

/-- Total number of increments still to be performed. -/
def remSum (s : MtxCounter) : Nat := (s.threads.map ThreadSt.rem).sum

/-- The machine invariant: the counter plus the pending increments is
constant, only the lock owner is inside the critical section (with work
left), and a thread about to write has read the current counter value. -/
def MtInv (n k : Nat) (s : MtxCounter) : Prop :=
  s.threads.length = n
    ∧ s.counter + remSum s = n * k
    ∧ (∀ t th, s.threads.get? t = some th → th.phase ≠ .outside →
        s.lockOwner = some t ∧ 1 ≤ th.rem)
    ∧ (∀ t th v, s.threads.get? t = some th → th.phase = .inCS2 v →
        v = s.counter)

/-- All threads have been joined: every thread has finished its loop. -/
def mtAllDone (s : MtxCounter) : Prop :=
  ∀ th ∈ s.threads, th.rem = 0

/-- Mutual exclusion: at most one thread is inside the critical section. -/
def mtMutualExclusion (s : MtxCounter) : Prop :=
  ∀ t t' th th', s.threads.get? t = some th → s.threads.get? t' = some th' →
    th.phase ≠ .outside → th'.phase ≠ .outside → t = t'

/-! ## MyBox -/

/-- The source's `MyBox<T>(T)`: a tuple struct wrapping one value. -/
structure MyBox (α : Type) where
  val : α

/-- The source's `MyBox::new(x)`. -/
def MyBox.mkNew (x : α) : MyBox α := ⟨x⟩

/-- The source's `Deref` implementation for `MyBox`: a reference to the
wrapped value (`&self.0`), not a move out of it. -/
def MyBox.deref (b : MyBox α) : α := b.val

theorem rcInv_init : RcInv rcInit := by
  constructor <;> simp [rcInit]

theorem rcStep_inv {op : RcOp} {s s' : RcState} (hinv : RcInv s)
    (h : rcStep op s = some s') : RcInv s' := by
  obtain ⟨hv, hb⟩ := hinv
  cases op <;> simp only [rcStep] at h <;>
    (repeat' split at h) <;> (try cases h) <;>
    refine ⟨?_, ?_⟩ <;> simp_all [decide_eq_true_eq] <;> omega

theorem rcRun_inv {ops : List RcOp} {s s' : RcState} (hinv : RcInv s)
    (h : rcRun ops s = some s') : RcInv s' := by
  induction ops generalizing s with
  | nil => simp [rcRun] at h; simpa [← h]
  | cons op ops ih =>
    simp only [rcRun] at h
    cases hstep : rcStep op s with
    | none => rw [hstep] at h; cases h
    | some s1 =>
      rw [hstep] at h
      exact ih (rcStep_inv hinv hstep) h

theorem rcStep_mono_destroyed {op : RcOp} {s s' : RcState}
    (h : rcStep op s = some s') (hd : s.valueDestroyed = true) :
    s'.valueDestroyed = true := by
  cases op <;> simp only [rcStep] at h <;>
    (repeat' split at h) <;> (try cases h) <;> simp_all

theorem rcRun_mono_destroyed {ops : List RcOp} {s s' : RcState}
    (h : rcRun ops s = some s') (hd : s.valueDestroyed = true) :
    s'.valueDestroyed = true := by
  induction ops generalizing s with
  | nil => simp [rcRun] at h; simpa [← h]
  | cons op ops ih =>
    simp only [rcRun] at h
    cases hstep : rcStep op s with
    | none => rw [hstep] at h; cases h
    | some s1 =>
      rw [hstep] at h
      exact ih h (rcStep_mono_destroyed hstep hd)

theorem rcRun_destroyCount {ops : List RcOp} {s s' : RcState}
    (h : rcRun ops s = some s') :
    rcDestroyCount ops s
      = (if s.valueDestroyed then 0 else if s'.valueDestroyed then 1 else 0) := by
  induction ops generalizing s with
  | nil =>
    simp [rcRun] at h
    subst h
    cases hsd : s.valueDestroyed <;> simp [rcDestroyCount, hsd]
  | cons op ops ih =>
    simp only [rcRun] at h
    cases hstep : rcStep op s with
    | none => rw [hstep] at h; cases h
    | some s1 =>
      rw [hstep] at h
      have hrest := ih h
      simp only [rcDestroyCount, hstep, hrest]
      by_cases hd : s.valueDestroyed = true
      · have hd1 : s1.valueDestroyed = true := rcStep_mono_destroyed hstep hd
        simp [hd, hd1]
      · simp only [Bool.not_eq_true] at hd
        by_cases hd1 : s1.valueDestroyed = true
        · have hd' : s'.valueDestroyed = true := rcRun_mono_destroyed h hd1
          simp [hd, hd1, hd']
        · simp only [Bool.not_eq_true] at hd1
          simp [hd, hd1]

/-! ## MutableCell helper lemmas -/

theorem mcInv_init : McInv mcInit := by
  refine ⟨fun _ => ⟨rfl, rfl⟩, ?_, ?_⟩ <;> intros <;> simp_all [mcInit]

theorem mcStep_inv (op : McOp) (c : MutableCell) (hc : McInv c) :
    McInv (mcStep op c) := by
  obtain ⟨hu, hs, he⟩ := hc
  cases op with
  | borrowOp =>
    cases hbs : c.bs with
    | unborrowed =>
      obtain ⟨h1, h2⟩ := hu hbs
      refine ⟨?_, ?_, ?_⟩ <;> simp_all [mcStep, borrow, hbs]
    | shared n =>
      obtain ⟨h1, h2, h3⟩ := hs n hbs
      refine ⟨?_, ?_, ?_⟩ <;> simp_all [mcStep, borrow, hbs]
    | exclusive =>
      simp only [mcStep, borrow, hbs]
      exact ⟨hu, hs, he⟩
  | borrowMutOp =>
    cases hbs : c.bs with
    | unborrowed =>
      obtain ⟨h1, h2⟩ := hu hbs
      refine ⟨?_, ?_, ?_⟩ <;> simp_all [mcStep, borrowMut, hbs]
    | shared n =>
      simp only [mcStep, borrowMut, hbs]
      exact ⟨hu, hs, he⟩
    | exclusive =>
      simp only [mcStep, borrowMut, hbs]
      exact ⟨hu, hs, he⟩
  | releaseReadOp =>
    cases hbs : c.bs with
    | unborrowed =>
      simp only [mcStep, hbs]
      exact ⟨hu, hs, he⟩
    | shared n =>
      obtain ⟨h1, h2, h3⟩ := hs n hbs
      match n, h3 with
      | 1, _ =>
        refine ⟨?_, ?_, ?_⟩ <;> simp_all [mcStep, hbs]
      | m + 2, _ =>
        refine ⟨?_, ?_, ?_⟩ <;> simp_all [mcStep, hbs]
    | exclusive =>
      simp only [mcStep, hbs]
      exact ⟨hu, hs, he⟩
  | releaseWriteOp =>
    cases hbs : c.bs with
    | unborrowed =>
      simp only [mcStep, hbs]
      exact ⟨hu, hs, he⟩
    | shared n =>
      simp only [mcStep, hbs]
      exact ⟨hu, hs, he⟩
    | exclusive =>
      obtain ⟨h1, h2⟩ := he hbs
      refine ⟨?_, ?_, ?_⟩ <;> simp_all [mcStep, hbs]

theorem mcRun_inv (ops : List McOp) (c : MutableCell) (hc : McInv c) :
    McInv (mcRun ops c) := by
  induction ops generalizing c with
  | nil => exact hc
  | cons op ops ih => exact ih _ (mcStep_inv op c hc)

/-! ## Channel helper lemmas -/

theorem recvAllAux_closed (q : List α) : recvAllAux q 0 = some q := by
  induction q with
  | nil => simp [recvAllAux]
  | cons a q ih => simp [recvAllAux, ih]

theorem sendAll_queue (xs : List α) (c : Channel α) :
    (c.sendAll xs).queue = c.queue ++ xs ∧ (c.sendAll xs).producers = c.producers := by
  induction xs generalizing c with
  | nil => simp [Channel.sendAll]
  | cons x xs ih =>
    obtain ⟨h1, h2⟩ := ih (c.send x)
    constructor
    · calc (c.sendAll (x :: xs)).queue = ((c.send x).sendAll xs).queue := rfl
        _ = (c.send x).queue ++ xs := h1
        _ = c.queue ++ x :: xs := by simp [Channel.send]
    · calc (c.sendAll (x :: xs)).producers = ((c.send x).sendAll xs).producers := rfl
        _ = (c.send x).producers := h2
        _ = c.producers := rfl

/-! ## Mutex helper lemmas -/

theorem mutexStep_poison (op : MutexOp) (m : MutexState)
    (hp : m.poisoned = true) : (mutexStep op m).poisoned = true := by
  cases op with
  | lockOp =>
    simp only [mutexStep, mutexLock]
    (repeat' split) <;> simp [hp]
  | unlockOp => simpa [mutexStep] using hp
  | panicWhileHeldOp =>
    simp only [mutexStep]
    split <;> simp [hp]

theorem mutexRun_poison (ops : List MutexOp) (m : MutexState)
    (hp : m.poisoned = true) : (mutexRun ops m).poisoned = true := by
  induction ops generalizing m with
  | nil => exact hp
  | cons op ops ih => exact ih _ (mutexStep_poison op m hp)

theorem mutexLock_not_ok (m : MutexState) (hp : m.poisoned = true) :
    (mutexLock m).1 ≠ .okGuard := by
  simp [mutexLock]
  split
  · simp
  · simp [hp]

/-! ## List helper lemmas for the mutex-counter machine -/

theorem get?_lt_length {α : Type} (l : List α) (i : Nat) (a : α)
    (h : l.get? i = some a) : i < l.length := by
  induction l generalizing i with
  | nil => simp [List.get?] at h
  | cons x l ih =>
    cases i with
    | zero => simp
    | succ i => simpa using ih i (by simpa using h)

theorem get?_of_set_self {α : Type} (l : List α) (i : Nat) (a : α)
    (h : i < l.length) : (l.set i a).get? i = some a := by
  induction l generalizing i with
  | nil => simp at h
  | cons x l ih =>
    cases i with
    | zero => rfl
    | succ i => simpa using ih i (by simpa using h)

theorem get?_of_set_other {α : Type} (l : List α) (i j : Nat) (a : α)
    (h : i ≠ j) : (l.set i a).get? j = l.get? j := by
  induction l generalizing i j with
  | nil => rfl
  | cons x l ih =>
    cases i with
    | zero =>
      cases j with
      | zero => exact absurd rfl h
      | succ j => rfl
    | succ i =>
      cases j with
      | zero => rfl
      | succ j => simpa using ih i j (fun hc => h (by rw [hc]))

theorem mem_of_get? {α : Type} (l : List α) (i : Nat) (a : α)
    (h : l.get? i = some a) : a ∈ l := by
  induction l generalizing i with
  | nil => simp [List.get?] at h
  | cons x l ih =>
    cases i with
    | zero => simp [List.get?] at h; simp [h]
    | succ i => exact List.mem_cons_of_mem x (ih i (by simpa using h))

theorem sum_map_rem_set (l : List ThreadSt) (i : Nat) (a th : ThreadSt)
    (h : l.get? i = some th) :
    ((l.set i a).map ThreadSt.rem).sum + th.rem
      = (l.map ThreadSt.rem).sum + a.rem := by
  induction l generalizing i with
  | nil => simp [List.get?] at h
  | cons x l ih =>
    cases i with
    | zero =>
      simp [List.get?] at h
      subst h
      simp only [List.set, List.map_cons, List.sum_cons]
      omega
    | succ i =>
      simp only [List.get?] at h
      have hs := ih i h
      simp only [List.set, List.map_cons, List.sum_cons]
      omega

/-! ## Mutex-counter machine: invariant preservation -/

theorem mtStep_inv (n k : Nat) (s : MtxCounter) (t : Nat) (hinv : MtInv n k s) :
    MtInv n k (mtStep s t) := by
  obtain ⟨hlen, hsum, hcs, hread⟩ := hinv
  cases hget : s.threads.get? t with
  | none =>
    have hgetE : s.threads[t]? = none := by rw [← List.get?_eq_getElem?]; exact hget
    have hid : mtStep s t = s := by simp [mtStep, hgetE]
    rw [hid]; exact ⟨hlen, hsum, hcs, hread⟩
  | some th =>
    have hgetE : s.threads[t]? = some th := by rw [← List.get?_eq_getElem?]; exact hget
    have hlt : t < s.threads.length := get?_lt_length _ _ _ hget
    cases hph : th.phase with
    | outside =>
      by_cases hrem : th.rem = 0
      · have hid : mtStep s t = s := by simp [mtStep, hgetE, hph, hrem]
        rw [hid]; exact ⟨hlen, hsum, hcs, hread⟩
      · cases hlo : s.lockOwner with
        | some u =>
          have hid : mtStep s t = s := by simp [mtStep, hgetE, hph, hrem, hlo]
          rw [hid]; exact ⟨hlen, hsum, hcs, hread⟩
        | none =>
          have hstep : mtStep s t =
              { s with lockOwner := some t,
                       threads := s.threads.set t { th with phase := .inCS1 } } := by
            simp [mtStep, hgetE, hph, hrem, hlo]
          rw [hstep]
          refine ⟨by simpa using hlen, ?_, ?_, ?_⟩
          · have hs := sum_map_rem_set s.threads t { th with phase := .inCS1 } th hget
            simp only [remSum] at hsum ⊢
            simp only at hs
            omega
          · intro t' th' hget' hph'
            by_cases hte : t' = t
            · subst hte
              rw [get?_of_set_self _ _ _ hlt] at hget'
              cases hget'
              exact ⟨rfl, Nat.one_le_iff_ne_zero.mpr hrem⟩
            · rw [get?_of_set_other _ _ _ _ (fun hh => hte hh.symm)] at hget'
              obtain ⟨hown, -⟩ := hcs t' th' hget' hph'
              rw [hlo] at hown
              cases hown
          · intro t' th' v hget' hphv
            by_cases hte : t' = t
            · subst hte
              rw [get?_of_set_self _ _ _ hlt] at hget'
              cases hget'
              simp at hphv
            · rw [get?_of_set_other _ _ _ _ (fun hh => hte hh.symm)] at hget'
              obtain ⟨hown, -⟩ := hcs t' th' hget' (by rw [hphv]; simp)
              rw [hlo] at hown
              cases hown
    | inCS1 =>
      have hot : th.phase ≠ .outside := by simp [hph]
      obtain ⟨hown, hrem1⟩ := hcs t th hget hot
      have hstep : mtStep s t =
          { s with threads := s.threads.set t { th with phase := .inCS2 s.counter } } := by
        simp [mtStep, hgetE, hph, hown]
      rw [hstep]
      refine ⟨by simpa using hlen, ?_, ?_, ?_⟩
      · have hs := sum_map_rem_set s.threads t { th with phase := .inCS2 s.counter } th hget
        simp only [remSum] at hsum ⊢
        simp only at hs
        omega
      · intro t' th' hget' hph'
        by_cases hte : t' = t
        · subst hte
          rw [get?_of_set_self _ _ _ hlt] at hget'
          cases hget'
          exact ⟨hown, hrem1⟩
        · rw [get?_of_set_other _ _ _ _ (fun hh => hte hh.symm)] at hget'
          obtain ⟨hown', -⟩ := hcs t' th' hget' hph'
          rw [hown] at hown'
          exact absurd (Option.some.inj hown').symm hte
      · intro t' th' v hget' hphv
        by_cases hte : t' = t
        · subst hte
          rw [get?_of_set_self _ _ _ hlt] at hget'
          cases hget'
          simp only at hphv
          exact (Phase.inCS2.inj hphv).symm
        · rw [get?_of_set_other _ _ _ _ (fun hh => hte hh.symm)] at hget'
          obtain ⟨hown', -⟩ := hcs t' th' hget' (by rw [hphv]; simp)
          rw [hown] at hown'
          exact absurd (Option.some.inj hown').symm hte
    | inCS2 v =>
      have hot : th.phase ≠ .outside := by simp [hph]
      obtain ⟨hown, hrem1⟩ := hcs t th hget hot
      have hv : v = s.counter := hread t th v hget hph
      have hstep : mtStep s t =
          { s with counter := v + 1, lockOwner := none,
                   threads := s.threads.set t ⟨th.rem - 1, .outside⟩ } := by
        simp [mtStep, hgetE, hph, hown]
      rw [hstep]
      refine ⟨by simpa using hlen, ?_, ?_, ?_⟩
      · have hs := sum_map_rem_set s.threads t ⟨th.rem - 1, .outside⟩ th hget
        simp only [remSum] at hsum ⊢
        simp only at hs
        omega
      · intro t' th' hget' hph'
        by_cases hte : t' = t
        · subst hte
          rw [get?_of_set_self _ _ _ hlt] at hget'
          cases hget'
          simp at hph'
        · rw [get?_of_set_other _ _ _ _ (fun hh => hte hh.symm)] at hget'
          obtain ⟨hown', -⟩ := hcs t' th' hget' hph'
          rw [hown] at hown'
          exact absurd (Option.some.inj hown').symm hte
      · intro t' th' w hget' hphv
        by_cases hte : t' = t
        · subst hte
          rw [get?_of_set_self _ _ _ hlt] at hget'
          cases hget'
          simp at hphv
        · rw [get?_of_set_other _ _ _ _ (fun hh => hte hh.symm)] at hget'
          obtain ⟨hown', -⟩ := hcs t' th' hget' (by rw [hphv]; simp)
          rw [hown] at hown'
          exact absurd (Option.some.inj hown').symm hte

theorem mtRun_inv (n k : Nat) (sched : List Nat) (s : MtxCounter)
    (hinv : MtInv n k s) : MtInv n k (mtRun sched s) := by
  induction sched generalizing s with
  | nil => exact hinv
  | cons t sched ih => exact ih _ (mtStep_inv n k s t hinv)

theorem mtInit_inv (n k : Nat) : MtInv n k (mtInit n k) := by
  refine ⟨by simp [mtInit], ?_, ?_, ?_⟩
  · simp [mtInit, remSum, List.map_replicate, List.sum_replicate, smul_eq_mul]
  · intro t th hget hph
    have heq := List.eq_of_mem_replicate (mem_of_get? _ _ _ hget)
    rw [heq] at hph
    exact absurd rfl hph
  · intro t th v hget hphv
    have heq := List.eq_of_mem_replicate (mem_of_get? _ _ _ hget)
    rw [heq] at hphv
    simp at hphv

theorem mtInv_mutualExclusion (n k : Nat) (s : MtxCounter) (hinv : MtInv n k s) :
    mtMutualExclusion s := by
  obtain ⟨-, -, hcs, -⟩ := hinv
  intro t t' th th' hget hget' hph hph'
  obtain ⟨h1, -⟩ := hcs t th hget hph
  obtain ⟨h2, -⟩ := hcs t' th' hget' hph'
  rw [h1] at h2
  exact Option.some.inj h2

theorem remSum_zero (s : MtxCounter) (hdone : mtAllDone s) : remSum s = 0 := by
  simp only [remSum]
  apply List.sum_eq_zero
  intro x hx
  obtain ⟨th, hth, hrem⟩ := List.mem_map.mp hx
  rw [← hrem]
  exact hdone th hth

theorem mtRun_single (k : Nat) : ∀ c : Nat,
    mtRun (List.replicate (3 * k) 0) ⟨c, none, [⟨k, .outside⟩]⟩
      = ⟨c + k, none, [⟨0, .outside⟩]⟩ := by
  induction k with
  | zero => intro c; simp [mtRun]
  | succ k ih =>
    intro c
    have h3 : 3 * (k + 1) = 3 * k + 1 + 1 + 1 := by ring
    rw [h3]
    have hrep : List.replicate (3 * k + 1 + 1 + 1) (0 : Nat)
        = 0 :: 0 :: 0 :: List.replicate (3 * k) 0 := rfl
    rw [hrep]
    have s1 : mtStep ⟨c, none, [⟨k + 1, .outside⟩]⟩ 0
        = ⟨c, some 0, [⟨k + 1, .inCS1⟩]⟩ := by
      simp [mtStep, List.get?, List.set]
    have s2 : mtStep ⟨c, some 0, [⟨k + 1, .inCS1⟩]⟩ 0
        = ⟨c, some 0, [⟨k + 1, .inCS2 c⟩]⟩ := by
      simp [mtStep, List.get?, List.set]
    have s3 : mtStep ⟨c, some 0, [⟨k + 1, .inCS2 c⟩]⟩ 0
        = ⟨c + 1, none, [⟨k, .outside⟩]⟩ := by
      simp [mtStep, List.get?, List.set]
    calc mtRun (0 :: 0 :: 0 :: List.replicate (3 * k) 0) ⟨c, none, [⟨k + 1, .outside⟩]⟩
        = mtRun (List.replicate (3 * k) 0)
            (mtStep (mtStep (mtStep ⟨c, none, [⟨k + 1, .outside⟩]⟩ 0) 0) 0) := rfl
      _ = mtRun (List.replicate (3 * k) 0) ⟨c + 1, none, [⟨k, .outside⟩]⟩ := by
            rw [s1, s2, s3]
      _ = ⟨c + 1 + k, none, [⟨0, .outside⟩]⟩ := ih (c + 1)
      _ = ⟨c + (k + 1), none, [⟨0, .outside⟩]⟩ := by
            rw [Nat.add_assoc, Nat.add_comm 1 k]

/-! ## Claim theorems -/

/-- C1: for every sequence of operations on a SharedCell starting from `new`,
the wrapped value is destroyed exactly once (the destruction count of any
valid run is at most 1, and is 1 exactly when the strong count has reached
0), it is destroyed exactly at the moment the strong count reaches 0, and
the control block is destroyed only when the weak count is also 0. -/
theorem c1_value_destroyed_exactly_once (ops : List RcOp) (s' : RcState)
    (h : rcRun ops rcInit = some s') :
    rcDestroyCount ops rcInit ≤ 1
      ∧ (rcDestroyCount ops rcInit = 1 ↔ s'.strong = 0)
      ∧ (s'.valueDestroyed = true ↔ s'.strong = 0)
      ∧ (s'.blockDestroyed = true ↔ s'.strong = 0 ∧ s'.weak = 0) := by
  obtain ⟨hv, hb⟩ := rcRun_inv rcInv_init h
  have hcount := rcRun_destroyCount h
  have h0 : rcInit.valueDestroyed = false := rfl
  rw [h0] at hcount
  simp only [Bool.false_eq_true, if_false] at hcount
  refine ⟨?_, ?_, hv, hb⟩
  · rw [hcount]; split <;> omega
  · rw [hcount]
    by_cases hd : s'.valueDestroyed = true
    · simp [hd, hv.mp hd]
    · have hns : ¬s'.strong = 0 := fun hc => hd (hv.mpr hc)
      simp [hd, hns]

/-- Witness for C1: dropping the only strong handle destroys the value
exactly once. -/
theorem c1_value_destroyed_exactly_once_witness :
    rcRun [RcOp.dropOp] rcInit = some ⟨0, 0, true, true⟩
      ∧ rcDestroyCount [RcOp.dropOp] rcInit = 1 := by
  refine ⟨by decide, ?_⟩
  exact (c1_value_destroyed_exactly_once [RcOp.dropOp] ⟨0, 0, true, true⟩
    (by decide)).2.1.mpr rfl

/-- C2: `borrow_mut` fails with "already borrowed" whenever the cell's state
is not Unborrowed; in no interleaving of borrow/borrow-mut/release
operations does an Exclusive (write) guard coexist with any other
outstanding guard; and in `will_panic` the second `borrow_mut`, taken while
the first write guard is live, fails. -/
theorem c2_borrowMut_never_aliases (ops : List McOp) :
    (∀ bs, bs ≠ BorrowState.unborrowed → borrowMut bs = .error .alreadyBorrowed)
      ∧ borrowMut mcInit.bs = .ok .exclusive
      ∧ borrowMut (mcStep .borrowMutOp mcInit).bs = .error .alreadyBorrowed
      ∧ ¬(1 ≤ (mcRun ops mcInit).writeGuards
            ∧ (1 ≤ (mcRun ops mcInit).readGuards
                ∨ 2 ≤ (mcRun ops mcInit).writeGuards)) := by
  refine ⟨?_, rfl, rfl, ?_⟩
  · intro bs hbs
    cases bs with
    | unborrowed => exact absurd rfl hbs
    | shared n => rfl
    | exclusive => rfl
  · rintro ⟨hw, hrw⟩
    obtain ⟨hu, hs, he⟩ := mcRun_inv ops mcInit mcInv_init
    cases hbs : (mcRun ops mcInit).bs with
    | unborrowed =>
      obtain ⟨h1, h2⟩ := hu hbs
      omega
    | shared n =>
      obtain ⟨h1, h2, h3⟩ := hs n hbs
      omega
    | exclusive =>
      obtain ⟨h1, h2⟩ := he hbs
      rcases hrw with h | h <;> omega

/-- Witness for C2: `borrow_mut` on an exclusively borrowed cell fails. -/
theorem c2_borrowMut_never_aliases_witness :
    borrowMut BorrowState.exclusive = .error .alreadyBorrowed :=
  (c2_borrowMut_never_aliases []).1 BorrowState.exclusive (by decide)

/-- C3: `upgrade` returns "absent" exactly when the target's strong count is
0; a successful upgrade increments the strong count and yields a handle
dereferencing to the original value; and in `tree`, upgrading `leaf.parent`
while `branch` (strong 1, weak 1 after the downgrade) is alive yields an
owning handle to `branch`. -/
theorem c3_upgrade_absent_iff_strong_zero (α : Type) (w : WeakRef α)
    (c h : SharedCell α) :
    (w.upgrade = none ↔ w.targetStrong = 0)
      ∧ (WeakRef.upgrade (.targeting c) = some h →
          h.ctrl.strong = c.ctrl.strong + 1 ∧ h.deref = c.deref)
      ∧ treeBranchCtrl = some ⟨1, 1, false, false⟩
      ∧ treeLeafCtrl = some ⟨2, 0, false, false⟩
      ∧ WeakRef.upgrade (.targeting ⟨treeBranchValue, ⟨1, 1, false, false⟩⟩)
          = some ⟨treeBranchValue, ⟨2, 1, false, false⟩⟩ := by
  refine ⟨?_, ?_, by decide, by decide, by decide⟩
  · cases w with
    | empty => simp [WeakRef.upgrade, WeakRef.targetStrong]
    | targeting c' =>
      by_cases hc : c'.ctrl.strong = 0 <;>
        simp [WeakRef.upgrade, WeakRef.targetStrong, hc]
  · intro hup
    simp only [WeakRef.upgrade] at hup
    split at hup
    · cases hup
    · cases hup
      exact ⟨rfl, rfl⟩

/-- Witness for C3: upgrading a weak reference to a live cell increments the
strong count. -/
theorem c3_upgrade_absent_iff_strong_zero_witness :
    (⟨0, ⟨2, 0, false, false⟩⟩ : SharedCell Nat).ctrl.strong
      = (SharedCell.mkNew (0 : Nat)).ctrl.strong + 1 :=
  ((c3_upgrade_absent_iff_strong_zero Nat .empty (SharedCell.mkNew 0)
    ⟨0, ⟨2, 0, false, false⟩⟩).2.1 (by decide)).1

/-- C4: `recv` reports "closed" exactly when the queue is empty and the
producer count is 0, it never blocks once the producer count is 0 (so
iterating the receiver after every producer is dropped terminates, returning
exactly the queued messages), it dequeues the front message when one is
present, and in `multiple_messages` the receiver iteration yields the four
sent messages and then stops. -/
theorem c4_recv_closed_not_blocking (α : Type) (c : Channel α) :
    (c.recvStep = .closed ↔ c.queue = [] ∧ c.producers = 0)
      ∧ (c.producers = 0 → c.recvStep ≠ .wouldBlock)
      ∧ (c.producers = 0 → c.recvAll = some c.queue)
      ∧ (∀ a q, c.queue = a :: q → c.recvStep = .msg a { c with queue := q })
      ∧ (((Channel.mkNew String).sendAll multipleMessagesVals).dropSender.recvAll
          = some multipleMessagesVals) := by
  obtain ⟨q, p⟩ := c
  refine ⟨?_, ?_, ?_, ?_, rfl⟩
  · cases q with
    | nil => by_cases hp : p = 0 <;> simp [Channel.recvStep, hp]
    | cons a q => simp [Channel.recvStep]
  · intro hp
    have hp' : p = 0 := hp
    cases q with
    | nil => simp [Channel.recvStep, hp']
    | cons a q => simp [Channel.recvStep]
  · intro hp
    have hp' : p = 0 := hp
    subst hp'
    exact recvAllAux_closed q
  · intro a q' hq
    have hq' : q = a :: q' := hq
    subst hq'
    simp [Channel.recvStep]

/-- Witness for C4: a recv on an empty queue with no producers reports
closed at once. -/
theorem c4_recv_closed_not_blocking_witness :
    Channel.recvAll (⟨[], 0⟩ : Channel Nat) = some [] :=
  (c4_recv_closed_not_blocking Nat ⟨[], 0⟩).2.2.1 rfl

/-- C5: per-sender FIFO order: sending a list from one producer appends it
in order to the queue, draining the channel returns exactly that list in
order, and sending [1, 2, 3] then receiving three times yields 1, 2, 3. -/
theorem c5_single_producer_fifo (α : Type) (c : Channel α) (xs : List α) :
    ((c.sendAll xs).queue = c.queue ++ xs)
      ∧ (((Channel.mkNew α).sendAll xs).dropSender.recvAll = some xs)
      ∧ Channel.recvStep (⟨[1, 2, 3], 1⟩ : Channel Nat) = .msg 1 ⟨[2, 3], 1⟩
      ∧ Channel.recvStep (⟨[2, 3], 1⟩ : Channel Nat) = .msg 2 ⟨[3], 1⟩
      ∧ Channel.recvStep (⟨[3], 1⟩ : Channel Nat) = .msg 3 ⟨[], 1⟩
      ∧ (((Channel.mkNew Nat).send 1).send 2).send 3 = ⟨[1, 2, 3], 1⟩ := by
  refine ⟨(sendAll_queue xs c).1, ?_, rfl, rfl, rfl, rfl⟩
  obtain ⟨hq, hp⟩ := sendAll_queue xs (Channel.mkNew α)
  have hd : ((Channel.mkNew α).sendAll xs).dropSender.recvAll
      = recvAllAux (((Channel.mkNew α).sendAll xs).queue)
          ((((Channel.mkNew α).sendAll xs).producers) - 1) := rfl
  have h1 : (Channel.mkNew α).queue = [] := rfl
  have h2 : (Channel.mkNew α).producers = 1 := rfl
  rw [hd, hq, hp, h1, h2]
  simpa using recvAllAux_closed xs

/-- Witness for C5 at the concrete list [1, 2, 3]. -/
theorem c5_single_producer_fifo_witness :
    ((Channel.mkNew Nat).sendAll [1, 2, 3]).dropSender.recvAll = some [1, 2, 3] :=
  (c5_single_producer_fifo Nat (Channel.mkNew Nat) [1, 2, 3]).2.1

/-- C6: `new` yields strong 1 and weak 0; every successful clone increments
the strong count by exactly 1 (on the same control block) and every
successful drop decrements it by exactly 1; and along `shared_list` the
strong count of `a` is 1 after creation, 2 after `b` clones it, 3 after `c`
clones it, and 2 after `c` goes out of scope. -/
theorem c6_shared_list_strong_counts :
    (rcInit.strong = 1 ∧ rcInit.weak = 0)
      ∧ (∀ s s', rcStep .cloneOp s = some s' →
          s'.strong = s.strong + 1 ∧ s'.weak = s.weak)
      ∧ (∀ s s', rcStep .dropOp s = some s' → s'.strong = s.strong - 1)
      ∧ (rcRun [] rcInit).map RcState.strong = some 1
      ∧ (rcRun [.cloneOp] rcInit).map RcState.strong = some 2
      ∧ (rcRun [.cloneOp, .cloneOp] rcInit).map RcState.strong = some 3
      ∧ (rcRun [.cloneOp, .cloneOp, .dropOp] rcInit).map RcState.strong = some 2 := by
  refine ⟨⟨rfl, rfl⟩, ?_, ?_, by decide, by decide, by decide, by decide⟩
  · intro s s' h
    simp only [rcStep] at h
    split at h
    · cases h; exact ⟨rfl, rfl⟩
    · cases h
  · intro s s' h
    simp only [rcStep] at h
    split at h
    · split at h
      · cases h
        rename_i h1 h2
        simpa using h2.symm
      · cases h; rfl
    · cases h

/-- Witness for C6: one clone of a fresh cell raises the strong count from 1
to 2. -/
theorem c6_shared_list_strong_counts_witness :
    rcStep RcOp.cloneOp rcInit = some ⟨2, 0, false, false⟩
      ∧ (⟨2, 0, false, false⟩ : RcState).strong = rcInit.strong + 1 := by
  refine ⟨by decide, ?_⟩
  exact (c6_shared_list_strong_counts.2.1 rcInit ⟨2, 0, false, false⟩ (by decide)).1

/-- C7: for every number of threads and every interleaving in which all
threads complete their 1000 lock-protected increments, the final counter is
exactly n * 1000 (no lost updates), and at most one thread is ever inside
the critical section. -/
theorem c7_counter_no_lost_updates (n : Nat) (sched : List Nat)
    (hdone : mtAllDone (mtRun sched (mtInit n 1000))) :
    (mtRun sched (mtInit n 1000)).counter = n * 1000
      ∧ mtMutualExclusion (mtRun sched (mtInit n 1000)) := by
  have hinv := mtRun_inv n 1000 sched (mtInit n 1000) (mtInit_inv n 1000)
  refine ⟨?_, mtInv_mutualExclusion n 1000 _ hinv⟩
  obtain ⟨-, hsum, -, -⟩ := hinv
  have h0 := remSum_zero _ hdone
  omega

/-- Witness for C7: one thread running its 1000 iterations to completion
ends with the counter at 1 * 1000. -/
theorem c7_counter_no_lost_updates_witness :
    (mtRun (List.replicate 3000 0) (mtInit 1 1000)).counter = 1 * 1000 := by
  have hrun : mtRun (List.replicate 3000 0) (mtInit 1 1000)
      = ⟨1000, none, [⟨0, .outside⟩]⟩ := by
    have h := mtRun_single 1000 0
    have e1 : 3 * 1000 = 3000 := by norm_num
    have e3 : (0 : Nat) + 1000 = 1000 := by norm_num
    rw [e1, e3] at h
    have e2 : mtInit 1 1000 = ⟨0, none, [⟨1000, Phase.outside⟩]⟩ := rfl
    rw [e2]
    exact h
  have hdone : mtAllDone (mtRun (List.replicate 3000 0) (mtInit 1 1000)) := by
    rw [hrun]
    intro th hth
    simp at hth
    simp [hth]
  exact (c7_counter_no_lost_updates 1 (List.replicate 3000 0) hdone).1

/-- C8: after a holder terminates abnormally while holding the lock, the
mutex stays poisoned under every subsequent operation sequence, and every
subsequent lock call surfaces "poisoned" as a recoverable result still
wrapping the guard (or blocks while held), never silently granting a plain
guard. -/
theorem c8_lock_surfaces_poisoned (m : MutexState) (ops : List MutexOp)
    (hheld : m.locked = true) :
    ((mutexRun ops (mutexStep .panicWhileHeldOp m)).poisoned = true)
      ∧ (mutexLock (mutexRun ops (mutexStep .panicWhileHeldOp m))).1 ≠ .okGuard
      ∧ ((mutexRun ops (mutexStep .panicWhileHeldOp m)).locked = false →
          (mutexLock (mutexRun ops (mutexStep .panicWhileHeldOp m))).1 = .poisonedErr
            ∧ (mutexLock (mutexRun ops (mutexStep .panicWhileHeldOp m))).2.locked = true
            ∧ (mutexLock (mutexRun ops (mutexStep .panicWhileHeldOp m))).2.poisoned = true) := by
  have hstep : (mutexStep .panicWhileHeldOp m).poisoned = true := by
    simp [mutexStep, hheld]
  have hp := mutexRun_poison ops _ hstep
  refine ⟨hp, mutexLock_not_ok _ hp, ?_⟩
  intro hfree
  simp [mutexLock, hfree, hp]

/-- Witness for C8: panicking while holding a fresh lock poisons it and the
next lock call reports poisoned. -/
theorem c8_lock_surfaces_poisoned_witness :
    (mutexLock (mutexRun [] (mutexStep .panicWhileHeldOp ⟨true, false⟩))).1
      = .poisonedErr :=
  ((c8_lock_surfaces_poisoned ⟨true, false⟩ [] rfl).2.2 rfl).1

/-- C9: after `reference_cycle` rebinds `a`'s tail to `b` while `b`'s tail
is `a`, both control blocks have strong count 2; dropping the two local
handles leaves each at 1, and no number of destruction-propagation steps
ever destroys either value: the counts stay at 1 forever. -/
theorem c9_reference_cycle_never_freed :
    cycleAfterLink.strongA = 2 ∧ cycleAfterLink.strongB = 2
      ∧ cycleAtEnd.strongA = 1 ∧ cycleAtEnd.strongB = 1
      ∧ (∀ nn, gcIter nn cycleAtEnd = cycleAtEnd)
      ∧ cycleAtEnd.destroyedA = false ∧ cycleAtEnd.destroyedB = false := by
  refine ⟨rfl, rfl, rfl, rfl, ?_, rfl, rfl⟩
  intro nn
  induction nn with
  | zero => rfl
  | succ nn ih =>
    have hfix : gcStep cycleAtEnd = cycleAtEnd := by decide
    calc gcIter (nn + 1) cycleAtEnd = gcIter nn (gcStep cycleAtEnd) := rfl
      _ = gcIter nn cycleAtEnd := by rw [hfix]
      _ = cycleAtEnd := ih

/-- Witness for C9 after seven propagation steps. -/
theorem c9_reference_cycle_never_freed_witness :
    gcIter 7 cycleAtEnd = cycleAtEnd :=
  c9_reference_cycle_never_freed.2.2.2.2.1 7

/-- C10: dereferencing the Box-like wrapper round-trips: `*MyBox::new(x)`
equals `x` for every value, and in particular the assertion of
`my_box_dereferences` that `*MyBox::new(5)` equals 5 holds. -/
theorem c10_mybox_deref_identity (α : Type) (x : α) :
    MyBox.deref (MyBox.mkNew x) = x
      ∧ MyBox.deref (MyBox.mkNew (5 : Nat)) = 5 :=
  ⟨rfl, rfl⟩

/-- Witness for C10 at the value 5 used in `my_box_dereferences`. -/
theorem c10_mybox_deref_identity_witness :
    MyBox.deref (MyBox.mkNew (5 : Nat)) = 5 :=
  (c10_mybox_deref_identity Nat 5).2
